import Mathlib

/-!
Verification of the camera-to-speech pipeline in `app.py`.

Strings are modelled as lists of characters (`PyStr`).  Timestamps,
intervals and similarity values, which the program stores in Python
floats, are modelled as exact rationals.  The external collaborators
(camera, OCR engine, speech engine, preview window) are modelled as
inputs to each loop iteration; everything the program itself computes
is translated directly from the source.
-/

/-- Python strings, modelled as lists of characters. -/
abbrev PyStr := List Char

/-- Whitespace characters recognised by Python `str.split()` / `str.strip()`
(the ASCII ones: space, tab, newline, carriage return, vertical tab,
form feed). -/
def isPySpace (c : Char) : Bool :=
  c == ' ' || c == '\t' || c == '\n' || c == '\r' || c == '\x0b' || c == '\x0c'

/-- Worker for `pySplit`: `acc` holds the (reversed) token being read. -/
def splitAux (acc : PyStr) : PyStr → List PyStr
  | [] => if acc.isEmpty then [] else [acc.reverse]
  | c :: cs =>
    if isPySpace c then
      if acc.isEmpty then splitAux [] cs else acc.reverse :: splitAux [] cs
    else
      splitAux (c :: acc) cs

/-- Python `text.split()` with no separator: split on runs of whitespace,
returning no empty tokens. -/
def pySplit (s : PyStr) : List PyStr := splitAux [] s

/-- Python `" ".join(tokens)`. -/
def pyJoin : List PyStr → PyStr
  | [] => []
  | [t] => t
  | t :: ts => t ++ ' ' :: pyJoin ts

/-- Python `s.strip()`: remove leading and trailing whitespace. -/
def pyStrip (s : PyStr) : PyStr :=
  ((s.dropWhile isPySpace).reverse.dropWhile isPySpace).reverse

/-- Source `normalize_text` (app.py line 49): `" ".join(text.split()).strip()`. -/
def normalize_text (s : PyStr) : PyStr := pyStrip (pyJoin (pySplit s))

/-- Python `s.lower()`, character by character. -/
def pyLower (s : PyStr) : PyStr := s.map Char.toLower

/-- The token set `set(s.lower().split())` used by `jaccard_similarity`. -/
def tokenSet (s : PyStr) : Finset PyStr := (pySplit (pyLower s)).toFinset

/-- Source `jaccard_similarity` (app.py lines 53-60).  The float division
`len(set_a & set_b) / len(set_a | set_b)` is modelled as exact rational
division. -/
def jaccard_similarity (a b : PyStr) : ℚ :=
  let sa := tokenSet a
  let sb := tokenSet b
  if sa = ∅ ∧ sb = ∅ then 1
  else if sa = ∅ ∨ sb = ∅ then 0
  else ((sa ∩ sb).card : ℚ) / ((sa ∪ sb).card : ℚ)

/-- The dedup decision inlined in `main` (app.py lines 130-132): `text` (the
already-normalized OCR output) is spoken iff it passes the length gate and
its similarity to `last` is strictly below the threshold. -/
def dedupAccept (minLen : ℕ) (thr : ℚ) (last text : PyStr) : Bool :=
  if minLen ≤ text.length then decide (jaccard_similarity text last < thr) else false

/-- The sampling gate inlined in `main` (app.py line 127):
`now - last_ocr >= config.ocr_interval`. -/
def should_sample (now last interval : ℚ) : Bool := decide (interval ≤ now - last)

/-- Source `AppConfig` (app.py lines 12-17). -/
structure AppConfig where
  camera_index : ℕ
  ocr_interval : ℚ
  min_text_length : ℕ
  similarity_threshold : ℚ

/-- The mutable state owned by `main`'s loop: `last_text`, `last_ocr`
(app.py lines 112-113), plus the list of texts handed to `speaker.say`
(in order), which records what was enqueued for speech. -/
structure LoopState where
  last_text : PyStr
  last_ocr : ℚ
  said : List PyStr

/-- Loop state at entry of the while loop (app.py lines 112-113). -/
def initLoopState : LoopState := { last_text := [], last_ocr := 0, said := [] }

/-- The external inputs consumed by one loop iteration: the result of
`cap.read()` (`ok`, the frame being opaque), the raw string the OCR
engine would produce for that frame, the value of `time.time()`, and the
key code returned by `cv2.waitKey(1)`. -/
structure IterInput where
  ok : Bool
  rawText : PyStr
  now : ℚ
  key : ℕ

/-- Source `extract_text` (app.py lines 63-68): the cv2 preprocessing and
`pytesseract.image_to_string` are external; the raw recognized string is
supplied as the iteration input, and `extract_text` normalizes it. -/
def extract_text (raw : PyStr) : PyStr := normalize_text raw

/-- One iteration of the while loop in `main` (app.py lines 118-138).
Returns the new state and whether the loop breaks (quit key observed).
A failed read (`not ok`) hits the `continue` on line 122, skipping the
rest of the body including the key poll.  `speaker.say` (lines 30-32)
enqueues only if the text strips to non-empty. -/
def loopStep (cfg : AppConfig) (s : LoopState) (inp : IterInput) : LoopState × Bool :=
  if !inp.ok then (s, false)
  else
    let s1 :=
      if should_sample inp.now s.last_ocr cfg.ocr_interval then
        let s2 : LoopState := { s with last_ocr := inp.now }
        let text := extract_text inp.rawText
        if dedupAccept cfg.min_text_length cfg.similarity_threshold s.last_text text then
          { s2 with
            last_text := text,
            said := if (pyStrip text).isEmpty then s2.said else s2.said ++ [text] }
        else s2
      else s
    (s1, inp.key % 256 == Char.toNat 'q')

/-- Run the loop over a list of iteration inputs, stopping early when an
iteration breaks. -/
def loopRun (cfg : AppConfig) (s : LoopState) : List IterInput → LoopState × Bool
  | [] => (s, false)
  | inp :: rest =>
    match loopStep cfg s inp with
    | (s1, true) => (s1, true)
    | (s1, false) => loopRun cfg s1 rest

/-- Observable speech events of the worker thread: an utterance starting
(`self._engine.say`) and an utterance finishing (`runAndWait` returning). -/
inductive SpeakEv where
  | sstart : PyStr → SpeakEv
  | sfin : PyStr → SpeakEv
deriving DecidableEq

/-- Program counter of the `TextSpeaker._worker` thread (app.py lines
39-46): at the top of the while loop (about to test the stop flag),
blocked in `self._q.get()`, holding a dequeued payload (about to test the
stop flag on line 42), past that test (about to test `text.strip()`),
speaking (between `say` and the end of `runAndWait`), or terminated. -/
inductive WorkerPC where
  | top
  | getting
  | haveText : PyStr → WorkerPC
  | checked : PyStr → WorkerPC
  | speaking : PyStr → WorkerPC
  | done
deriving DecidableEq

/-- State of a `TextSpeaker` (app.py lines 20-46) together with the
worker position and two history fields (`enqueued`, `dequeued`) recording
every payload ever put into or taken out of the FIFO queue, in order. -/
structure SpeakerState where
  queue : List PyStr
  stop : Bool
  pc : WorkerPC
  events : List SpeakEv
  enqueued : List PyStr
  dequeued : List PyStr
deriving DecidableEq

/-- Interleaved small-step semantics of the producer (`say`, `close`) and
the consumer (`_worker`).  `say` enqueues only non-blank text (line 31);
`close` sets the stop flag and enqueues the empty sentinel (lines 35-36),
modelled as two separate actions; the worker tests the stop flag at the
loop head (line 40) and again after dequeuing (line 42), and speaks a
payload to completion before looping (lines 44-46). -/
inductive SpeakerStep : SpeakerState → SpeakerState → Prop where
  | say (s : SpeakerState) (t : PyStr) (ht : pyStrip t ≠ []) :
      SpeakerStep s { s with queue := s.queue ++ [t], enqueued := s.enqueued ++ [t] }
  | closeStop (s : SpeakerState) :
      SpeakerStep s { s with stop := true }
  | closeSentinel (s : SpeakerState) :
      SpeakerStep s { s with queue := s.queue ++ [[]], enqueued := s.enqueued ++ [[]] }
  | topStop (s : SpeakerState) (h : s.pc = .top) (hs : s.stop = true) :
      SpeakerStep s { s with pc := .done }
  | topGo (s : SpeakerState) (h : s.pc = .top) (hs : s.stop = false) :
      SpeakerStep s { s with pc := .getting }
  | getItem (s : SpeakerState) (t : PyStr) (q' : List PyStr)
      (h : s.pc = .getting) (hq : s.queue = t :: q') :
      SpeakerStep s
        { s with pc := .haveText t, queue := q', dequeued := s.dequeued ++ [t] }
  | checkStop (s : SpeakerState) (t : PyStr) (h : s.pc = .haveText t)
      (hs : s.stop = true) :
      SpeakerStep s { s with pc := .done }
  | checkPass (s : SpeakerState) (t : PyStr) (h : s.pc = .haveText t)
      (hs : s.stop = false) :
      SpeakerStep s { s with pc := .checked t }
  | skipBlank (s : SpeakerState) (t : PyStr) (h : s.pc = .checked t)
      (ht : pyStrip t = []) :
      SpeakerStep s { s with pc := .top }
  | speakStart (s : SpeakerState) (t : PyStr) (h : s.pc = .checked t)
      (ht : pyStrip t ≠ []) :
      SpeakerStep s { s with pc := .speaking t, events := s.events ++ [.sstart t] }
  | speakFin (s : SpeakerState) (t : PyStr) (h : s.pc = .speaking t) :
      SpeakerStep s { s with pc := .top, events := s.events ++ [.sfin t] }

/-- A fresh `TextSpeaker` after `start()`: empty queue, stop flag clear,
worker at the loop head, no history. -/
def speakerInit : SpeakerState :=
  { queue := [], stop := false, pc := .top, events := [], enqueued := [], dequeued := [] }

/-- States reachable from a fresh `TextSpeaker`. -/
def SpeakerReach (s : SpeakerState) : Prop :=
  Relation.ReflTransGen SpeakerStep speakerInit s

/-- A concrete speaker state used to witness the shutdown-invariant
theorem: the worker has dequeued the non-blank payload "hi" while the
stop flag is already set. -/
def stoppedState : SpeakerState :=
  { queue := [], stop := true, pc := .haveText ['h', 'i'], events := [],
    enqueued := [['h', 'i']], dequeued := [['h', 'i']] }

/-- The utterances started so far, in order, read off the event list. -/
def startedOf : List SpeakEv → List PyStr
  | [] => []
  | SpeakEv.sstart t :: es => t :: startedOf es
  | SpeakEv.sfin _ :: es => startedOf es

/-- The event list of a sequence of utterances each spoken to completion
before the next starts. -/
def pairEvents : List PyStr → List SpeakEv
  | [] => []
  | t :: ts => SpeakEv.sstart t :: SpeakEv.sfin t :: pairEvents ts

/-- A payload is audible iff it strips to non-empty, the test both
`say` (line 31) and the worker (line 44) apply. -/
def spokenOK (t : PyStr) : Bool := !(pyStrip t).isEmpty

/-- Shape of the event list as a function of the worker position: a
sequence of completed utterances, plus one trailing unfinished start
exactly while the worker is speaking. -/
def eventShapeAt : WorkerPC → List SpeakEv → Prop
  | WorkerPC.top, evs => ∃ ts, evs = pairEvents ts
  | WorkerPC.getting, evs => ∃ ts, evs = pairEvents ts
  | WorkerPC.haveText _, evs => ∃ ts, evs = pairEvents ts
  | WorkerPC.checked _, evs => ∃ ts, evs = pairEvents ts
  | WorkerPC.speaking t, evs => ∃ ts, evs = pairEvents ts ++ [SpeakEv.sstart t]
  | WorkerPC.done, evs => ∃ ts, evs = pairEvents ts

/-- How the utterances started so far relate to the dequeue history:
every audible dequeued payload has been started, in dequeue order, except
the payload currently in the worker's hands (and, once the worker is
done, at most one abandoned payload). -/
def dequeueShapeAt : WorkerPC → List SpeakEv → List PyStr → Prop
  | WorkerPC.top, evs, dq => startedOf evs = dq.filter spokenOK
  | WorkerPC.getting, evs, dq => startedOf evs = dq.filter spokenOK
  | WorkerPC.haveText t, evs, dq =>
      ∃ d, dq = d ++ [t] ∧ startedOf evs = d.filter spokenOK
  | WorkerPC.checked t, evs, dq =>
      ∃ d, dq = d ++ [t] ∧ startedOf evs = d.filter spokenOK
  | WorkerPC.speaking t, evs, dq =>
      ∃ d, dq = d ++ [t] ∧ spokenOK t = true ∧
        startedOf evs = d.filter spokenOK ++ [t]
  | WorkerPC.done, evs, dq =>
      ∃ d rest, dq = d ++ rest ∧ rest.length ≤ 1 ∧
        startedOf evs = d.filter spokenOK

/-- Inductive invariant of the speech channel: the enqueue history splits
into the dequeue history followed by the current queue, and the event
list and dequeue history have the shapes dictated by the worker
position. -/
def SpeakerInv (s : SpeakerState) : Prop :=
  s.enqueued = s.dequeued ++ s.queue ∧ eventShapeAt s.pc s.events ∧
    dequeueShapeAt s.pc s.events s.dequeued

/-- C8: the sampling gate is the predicate `now - last_sample >= interval`,
and on the spec's test values it gives false at `(10.0, 9.0, 1.2)` and
true at `(10.3, 9.0, 1.2)`. -/
theorem should_sample_spec :
    (∀ now last interval : ℚ,
      should_sample now last interval = decide (interval ≤ now - last)) ∧
    should_sample 10 9 (1.2 : ℚ) = false ∧
    should_sample (10.3 : ℚ) 9 (1.2 : ℚ) = true := by
  refine ⟨fun _ _ _ => rfl, ?_, ?_⟩ <;>
    · simp only [should_sample, decide_eq_false_iff_not, decide_eq_true_eq]
      norm_num

/-- C9: since `last_ocr` is initialized to `0.0`, the gate passes on the
first successfully read frame whenever the current time is at least the
(positive) interval, and that iteration advances the sampling clock to
`now` (the first OCR attempt happens immediately). -/
theorem first_frame_is_sampled (cfg : AppConfig) (inp : IterInput)
    (hpos : 0 < cfg.ocr_interval) (hnow : cfg.ocr_interval ≤ inp.now)
    (hok : inp.ok = true) :
    should_sample inp.now initLoopState.last_ocr cfg.ocr_interval = true ∧
    (loopStep cfg initLoopState inp).1.last_ocr = inp.now := by
  have hs : should_sample inp.now initLoopState.last_ocr cfg.ocr_interval = true := by
    simpa [should_sample, initLoopState] using hnow
  refine ⟨hs, ?_⟩
  cases hd : dedupAccept cfg.min_text_length cfg.similarity_threshold
      initLoopState.last_text (extract_text inp.rawText) <;>
    simp [loopStep, hok, hs, hd]

theorem first_frame_is_sampled_witness :
    should_sample 5 initLoopState.last_ocr (⟨0, 1, 4, 1⟩ : AppConfig).ocr_interval = true ∧
    (loopStep ⟨0, 1, 4, 1⟩ initLoopState ⟨true, [], 5, 0⟩).1.last_ocr = (5 : ℚ) :=
  first_frame_is_sampled ⟨0, 1, 4, 1⟩ ⟨true, [], 5, 0⟩ (by decide) (by decide) rfl

/-- C6: an iteration whose frame read fails leaves the dedup state
(`last_text`) and the sampling clock (`last_ocr`) unchanged. -/
theorem failed_read_preserves_state (cfg : AppConfig) (s : LoopState) (inp : IterInput)
    (h : inp.ok = false) :
    (loopStep cfg s inp).1.last_text = s.last_text ∧
    (loopStep cfg s inp).1.last_ocr = s.last_ocr := by
  simp [loopStep, h]

theorem failed_read_preserves_state_witness :
    (loopStep ⟨0, 1, 4, 1⟩ initLoopState ⟨false, [], 5, 113⟩).1.last_text =
      initLoopState.last_text ∧
    (loopStep ⟨0, 1, 4, 1⟩ initLoopState ⟨false, [], 5, 113⟩).1.last_ocr =
      initLoopState.last_ocr :=
  failed_read_preserves_state ⟨0, 1, 4, 1⟩ initLoopState ⟨false, [], 5, 113⟩ rfl

/-- C10: when the frame read fails, the `continue` precedes the key poll,
so the iteration can never break; as long as reads keep failing the loop
never observes the quit signal and its state never changes, whatever keys
are pressed. -/
theorem failed_reads_never_quit (cfg : AppConfig) (s : LoopState)
    (inps : List IterInput) (h : ∀ i ∈ inps, i.ok = false) :
    loopRun cfg s inps = (s, false) := by
  induction inps with
  | nil => rfl
  | cons inp rest ih =>
    have h1 : inp.ok = false := h inp (by simp)
    have hstep : loopStep cfg s inp = (s, false) := by simp [loopStep, h1]
    rw [loopRun, hstep]
    exact ih fun i hi => h i (by simp [hi])

theorem failed_reads_never_quit_witness :
    loopRun ⟨0, 1, 4, 1⟩ initLoopState
      [⟨false, [], 5, 113⟩, ⟨false, [], 6, 113⟩] = (initLoopState, false) :=
  failed_reads_never_quit ⟨0, 1, 4, 1⟩ initLoopState
    [⟨false, [], 5, 113⟩, ⟨false, [], 6, 113⟩] (by decide)

/-- C5: `jaccard_similarity` is symmetric, always lands in the interval
from 0 to 1 (in particular it is total, raising no error on empty input),
and follows the specified case split: 1 when both token sets are empty,
0 when exactly one is empty, and intersection over union otherwise. -/
theorem jaccard_similarity_spec :
    (∀ a b, jaccard_similarity a b = jaccard_similarity b a) ∧
    (∀ a b, 0 ≤ jaccard_similarity a b ∧ jaccard_similarity a b ≤ 1) ∧
    (∀ a b, tokenSet a = ∅ → tokenSet b = ∅ → jaccard_similarity a b = 1) ∧
    (∀ a b, (tokenSet a = ∅ ∧ tokenSet b ≠ ∅) ∨ (tokenSet a ≠ ∅ ∧ tokenSet b = ∅) →
      jaccard_similarity a b = 0) ∧
    (∀ a b, tokenSet a ≠ ∅ → tokenSet b ≠ ∅ →
      jaccard_similarity a b =
        ((tokenSet a ∩ tokenSet b).card : ℚ) / ((tokenSet a ∪ tokenSet b).card : ℚ)) := by
  refine ⟨?_, ?_, ?_, ?_, ?_⟩
  · intro a b
    unfold jaccard_similarity
    rcases eq_or_ne (tokenSet a) ∅ with ha | ha <;>
      rcases eq_or_ne (tokenSet b) ∅ with hb | hb <;>
        simp [ha, hb, Finset.inter_comm, Finset.union_comm]
  · intro a b
    unfold jaccard_similarity
    rcases eq_or_ne (tokenSet a) ∅ with ha | ha <;>
      rcases eq_or_ne (tokenSet b) ∅ with hb | hb <;> simp [ha, hb]
    have hpos : (0 : ℚ) < ((tokenSet a ∪ tokenSet b).card : ℚ) := by
      have hne : (tokenSet a).Nonempty := Finset.nonempty_iff_ne_empty.mpr ha
      exact_mod_cast Finset.card_pos.mpr (hne.mono Finset.subset_union_left)
    constructor
    · positivity
    · rw [div_le_one hpos]
      exact_mod_cast
        Finset.card_le_card (Finset.inter_subset_left.trans Finset.subset_union_left)
  · intro a b ha hb
    simp [jaccard_similarity, ha, hb]
  · rintro a b (⟨ha, hb⟩ | ⟨ha, hb⟩) <;> simp [jaccard_similarity, ha, hb]
  · intro a b ha hb
    simp [jaccard_similarity, ha, hb]

theorem jaccard_similarity_spec_witness :
    jaccard_similarity [] [] = 1 ∧ jaccard_similarity ['x'] [] = 0 :=
  ⟨jaccard_similarity_spec.2.2.1 [] [] (by decide) (by decide),
   jaccard_similarity_spec.2.2.2.1 ['x'] [] (Or.inr ⟨by decide, by decide⟩)⟩

/-- C3: for a length-passing text the dedup filter rejects exactly when
the similarity to the last accepted text is at least the threshold (the
source comparison on app.py line 132 is strict `<` for acceptance, so the
boundary case is suppressed); since identical text has similarity 1, a
repeat is rejected even at threshold exactly 1. -/
theorem dedup_threshold_boundary :
    (∀ (minLen : ℕ) (thr : ℚ) (last text : PyStr), minLen ≤ text.length →
      (dedupAccept minLen thr last text = false ↔ thr ≤ jaccard_similarity text last)) ∧
    (∀ text : PyStr, jaccard_similarity text text = 1) ∧
    (∀ (minLen : ℕ) (text : PyStr), minLen ≤ text.length →
      dedupAccept minLen 1 text text = false) := by
  have h1 : ∀ (minLen : ℕ) (thr : ℚ) (last text : PyStr), minLen ≤ text.length →
      (dedupAccept minLen thr last text = false ↔ thr ≤ jaccard_similarity text last) := by
    intro minLen thr last text h
    simp [dedupAccept, h, not_lt]
  have h2 : ∀ text : PyStr, jaccard_similarity text text = 1 := by
    intro text
    unfold jaccard_similarity
    rcases eq_or_ne (tokenSet text) ∅ with ht | ht
    · simp [ht]
    · have hpos : (0 : ℚ) < ((tokenSet text).card : ℚ) := by
        exact_mod_cast Finset.card_pos.mpr (Finset.nonempty_iff_ne_empty.mpr ht)
      simp only [ht, and_self, or_self, if_false, if_neg, Finset.inter_self,
        Finset.union_self]
      exact div_self (ne_of_gt hpos)
  refine ⟨h1, h2, fun minLen text h => ?_⟩
  exact (h1 minLen 1 text text h).mpr (le_of_eq (h2 text).symm)

theorem dedup_threshold_boundary_witness :
    dedupAccept 1 0 [] ['a'] = false :=
  (dedup_threshold_boundary.1 1 0 [] ['a'] (by decide)).mpr (by decide)

/-- C1 fails as stated: the claim quantifies over every similarity
threshold in the closed interval from 0 to 1 and every text whose
normalized length passes the gate, but at threshold exactly 0 (which is
in that interval) the code rejects the length-passing text "abcd"
(similarity against the empty `last_text` is 0 and the acceptance test
is `similarity < threshold`), and with `min_text_length` 0 the empty
text passes the length gate yet is rejected at the in-range threshold
1/2 (its similarity against the empty `last_text` is 1). -/
theorem first_detection_counterexample :
    ((0:ℚ) ≤ 0 ∧ (0:ℚ) ≤ 1) ∧
    4 ≤ (normalize_text ['a', 'b', 'c', 'd']).length ∧
    dedupAccept 4 0 [] (normalize_text ['a', 'b', 'c', 'd']) = false ∧
    dedupAccept 0 (1/2 : ℚ) [] (normalize_text []) = false := by
  refine ⟨by norm_num, by decide, by decide, ?_⟩
  have hn : normalize_text [] = ([] : PyStr) := by decide
  have hj : jaccard_similarity [] [] = 1 := by decide
  rw [hn]
  simp only [dedupAccept, List.length_nil, Nat.le_refl, if_pos, hj,
    decide_eq_false_iff_not, not_lt]
  norm_num

theorem splitAux_allWs (s : PyStr) (acc : PyStr)
    (h : ∀ c ∈ s, isPySpace c = true) :
    splitAux acc s = if acc.isEmpty then [] else [acc.reverse] := by
  induction s generalizing acc with
  | nil => rfl
  | cons c cs ih =>
    have hc : isPySpace c = true := h c (List.mem_cons_self c cs)
    have ihe : splitAux [] cs = [] := by
      simpa using ih [] fun d hd => h d (List.mem_cons_of_mem c hd)
    cases hacc : acc.isEmpty <;> simp [splitAux, hc, hacc, ihe]

theorem splitAux_ne (cs : PyStr) (acc : PyStr) (h : acc ≠ []) :
    splitAux acc cs =
      (acc.reverse ++ cs.takeWhile (fun d => !isPySpace d)) ::
        splitAux [] (cs.dropWhile (fun d => !isPySpace d)) := by
  induction cs generalizing acc with
  | nil => simp [splitAux, h]
  | cons d cs ih =>
    have hacc : acc.isEmpty = false := by simpa [List.isEmpty_iff] using h
    cases hd : isPySpace d with
    | true => simp [splitAux, hd, hacc, List.takeWhile_cons, List.dropWhile_cons]
    | false =>
      have := ih (d :: acc) (by simp)
      simp only [splitAux, hd, if_false, Bool.false_eq_true]
      rw [this]
      simp [List.takeWhile_cons, List.dropWhile_cons, hd]

theorem pySplit_cons_ws (c : Char) (cs : PyStr) (h : isPySpace c = true) :
    pySplit (c :: cs) = pySplit cs := by
  simp [pySplit, splitAux, h]

theorem pySplit_cons_tok (c : Char) (cs : PyStr) (h : isPySpace c = false) :
    pySplit (c :: cs) =
      (c :: cs.takeWhile (fun d => !isPySpace d)) ::
        pySplit (cs.dropWhile (fun d => !isPySpace d)) := by
  show splitAux [] (c :: cs) = _
  simp only [splitAux, h, if_false, Bool.false_eq_true]
  rw [splitAux_ne cs [c] (by simp)]
  rfl

theorem splitAux_tokens (s : PyStr) :
    ∀ acc, (∀ c ∈ acc, isPySpace c = false) →
      ∀ t ∈ splitAux acc s, t ≠ [] ∧ ∀ c ∈ t, isPySpace c = false := by
  induction s with
  | nil =>
    intro acc hacc t ht
    by_cases he : acc = []
    · simp [splitAux, he] at ht
    · have : acc.isEmpty = false := by simpa [List.isEmpty_iff] using he
      simp [splitAux, this] at ht
      subst ht
      exact ⟨by simpa using he, fun c hc => hacc c (List.mem_reverse.mp hc)⟩
  | cons c cs ih =>
    intro acc hacc t ht
    cases hc : isPySpace c with
    | true =>
      by_cases he : acc = []
      · subst he
        simp [splitAux, hc] at ht
        exact ih [] (by simp) t ht
      · have hne : acc.isEmpty = false := by simpa [List.isEmpty_iff] using he
        simp [splitAux, hc, hne] at ht
        rcases ht with ht | ht
        · subst ht
          exact ⟨by simpa using he, fun d hd => hacc d (List.mem_reverse.mp hd)⟩
        · exact ih [] (by simp) t ht
    | false =>
      simp only [splitAux, hc, if_false, Bool.false_eq_true] at ht
      refine ih (c :: acc) ?_ t ht
      intro d hd
      rcases List.mem_cons.mp hd with rfl | hd
      · exact hc
      · exact hacc d hd

theorem pySplit_tokens (s : PyStr) :
    ∀ t ∈ pySplit s, t ≠ [] ∧ ∀ c ∈ t, isPySpace c = false :=
  splitAux_tokens s [] (by simp)

theorem takeWhile_append_of_all {α : Type} (p : α → Bool) (l y : List α)
    (h : ∀ x ∈ l, p x = true) : (l ++ y).takeWhile p = l ++ y.takeWhile p := by
  induction l with
  | nil => rfl
  | cons a l ih =>
    have ha : p a = true := h a (List.mem_cons_self a l)
    simp [List.takeWhile_cons, ha, ih fun x hx => h x (List.mem_cons_of_mem a hx)]

theorem dropWhile_append_of_all {α : Type} (p : α → Bool) (l y : List α)
    (h : ∀ x ∈ l, p x = true) : (l ++ y).dropWhile p = y.dropWhile p := by
  induction l with
  | nil => rfl
  | cons a l ih =>
    have ha : p a = true := h a (List.mem_cons_self a l)
    simp [List.dropWhile_cons, ha, ih fun x hx => h x (List.mem_cons_of_mem a hx)]

theorem pySplit_tok_append (t r : PyStr) (h1 : t ≠ [])
    (h2 : ∀ c ∈ t, isPySpace c = false) :
    pySplit (t ++ ' ' :: r) = t :: pySplit r := by
  cases t with
  | nil => exact absurd rfl h1
  | cons c t' =>
    have hc : isPySpace c = false := h2 c (List.mem_cons_self c t')
    have ht' : ∀ d ∈ t', (fun d => !isPySpace d) d = true := by
      intro d hd
      simp [h2 d (List.mem_cons_of_mem c hd)]
    rw [List.cons_append, pySplit_cons_tok c _ hc,
      takeWhile_append_of_all _ t' _ ht', dropWhile_append_of_all _ t' _ ht']
    have hsp : isPySpace ' ' = true := rfl
    simp [List.takeWhile_cons, List.dropWhile_cons, hsp, pySplit_cons_ws ' ' r hsp]

theorem pySplit_single_tok (t : PyStr) (h1 : t ≠ [])
    (h2 : ∀ c ∈ t, isPySpace c = false) : pySplit t = [t] := by
  cases t with
  | nil => exact absurd rfl h1
  | cons c t' =>
    have hc : isPySpace c = false := h2 c (List.mem_cons_self c t')
    have ht' : ∀ d ∈ t', (fun d => !isPySpace d) d = true := by
      intro d hd
      simp [h2 d (List.mem_cons_of_mem c hd)]
    rw [pySplit_cons_tok c _ hc, List.takeWhile_eq_self_iff.mpr ht',
      List.dropWhile_eq_nil_iff.mpr fun d hd => ht' d hd]
    rfl

theorem pySplit_pyJoin (ts : List PyStr)
    (h : ∀ t ∈ ts, t ≠ [] ∧ ∀ c ∈ t, isPySpace c = false) :
    pySplit (pyJoin ts) = ts := by
  induction ts with
  | nil => rfl
  | cons t ts ih =>
    cases ts with
    | nil =>
      have := h t (List.mem_cons_self t [])
      exact pySplit_single_tok t this.1 this.2
    | cons u us =>
      have ht := h t (List.mem_cons_self t (u :: us))
      have : pyJoin (t :: u :: us) = t ++ ' ' :: pyJoin (u :: us) := rfl
      rw [this, pySplit_tok_append t _ ht.1 ht.2,
        ih fun x hx => h x (List.mem_cons_of_mem t hx)]

theorem splitAux_append_ws (b : PyStr) (hb : ∀ c ∈ b, isPySpace c = true) :
    ∀ (a acc : PyStr), splitAux acc (a ++ b) = splitAux acc a := by
  intro a
  induction a with
  | nil =>
    intro acc
    rw [List.nil_append, splitAux_allWs b acc hb]
    rfl
  | cons c cs ih =>
    intro acc
    cases hc : isPySpace c with
    | true => cases hacc : acc.isEmpty <;> simp [splitAux, hc, hacc, ih]
    | false => simp [splitAux, hc, ih]

theorem pySplit_append_ws (a b : PyStr) (hb : ∀ c ∈ b, isPySpace c = true) :
    pySplit (a ++ b) = pySplit a :=
  splitAux_append_ws b hb a []

theorem pySplit_dropWhile (s : PyStr) :
    pySplit (s.dropWhile isPySpace) = pySplit s := by
  induction s with
  | nil => rfl
  | cons c cs ih =>
    cases hc : isPySpace c with
    | true => rw [List.dropWhile_cons, if_pos hc, ih, pySplit_cons_ws c cs hc]
    | false => rw [List.dropWhile_cons, if_neg (by simp [hc])]

theorem pySplit_pyStrip (s : PyStr) : pySplit (pyStrip s) = pySplit s := by
  have hdecomp :
      pyStrip s ++ (((s.dropWhile isPySpace).reverse.takeWhile isPySpace)).reverse =
        s.dropWhile isPySpace := by
    show ((s.dropWhile isPySpace).reverse.dropWhile isPySpace).reverse ++ _ = _
    rw [← List.reverse_append, List.takeWhile_append_dropWhile, List.reverse_reverse]
  have hws :
      ∀ c ∈ (((s.dropWhile isPySpace).reverse.takeWhile isPySpace)).reverse,
        isPySpace c = true := by
    intro c hc
    exact List.mem_takeWhile_imp (List.mem_reverse.mp hc)
  calc pySplit (pyStrip s)
      = pySplit (pyStrip s ++
          (((s.dropWhile isPySpace).reverse.takeWhile isPySpace)).reverse) :=
        (pySplit_append_ws _ _ hws).symm
    _ = pySplit (s.dropWhile isPySpace) := by rw [hdecomp]
    _ = pySplit s := pySplit_dropWhile s

theorem normalize_text_split (s : PyStr) :
    pySplit (normalize_text s) = pySplit s := by
  show pySplit (pyStrip (pyJoin (pySplit s))) = pySplit s
  rw [pySplit_pyStrip, pySplit_pyJoin _ (pySplit_tokens s)]

/-- C7: normalization is idempotent, and whitespace-only (in particular
empty) input normalizes to the empty string. -/
theorem normalize_text_idempotent :
    (∀ s : PyStr, normalize_text (normalize_text s) = normalize_text s) ∧
    (∀ s : PyStr, (∀ c ∈ s, isPySpace c = true) → normalize_text s = []) := by
  constructor
  · intro s
    show pyStrip (pyJoin (pySplit (normalize_text s))) = normalize_text s
    rw [normalize_text_split]
    rfl
  · intro s h
    have hnil : pySplit s = [] := by
      show splitAux [] s = []
      rw [splitAux_allWs s [] h]
      rfl
    show pyStrip (pyJoin (pySplit s)) = []
    rw [hnil]
    rfl

theorem normalize_text_idempotent_witness :
    normalize_text (normalize_text [' ', 'a', ' ', ' ', 'b']) =
      normalize_text [' ', 'a', ' ', ' ', 'b'] ∧
    normalize_text [' ', '\t'] = [] :=
  ⟨normalize_text_idempotent.1 [' ', 'a', ' ', ' ', 'b'],
   normalize_text_idempotent.2 [' ', '\t'] (by decide)⟩

theorem char_toNat_ofNat (m : ℕ) (h : m.isValidChar) :
    (Char.ofNat m).toNat = m := by
  unfold Char.ofNat
  rw [dif_pos h]
  rfl

theorem isPySpace_eq_false_of_toNat (c : Char) (h : 64 < c.toNat) :
    isPySpace c = false := by
  have hne : ∀ d : Char, d.toNat ≤ 64 → (c == d) = false := by
    intro d hd
    apply beq_eq_false_iff_ne.mpr
    intro e
    subst e
    omega
  unfold isPySpace
  rw [hne ' ' (by decide), hne '\t' (by decide), hne '\n' (by decide),
    hne '\r' (by decide), hne '\x0b' (by decide), hne '\x0c' (by decide)]
  rfl

theorem isPySpace_toLower (c : Char) :
    isPySpace (Char.toLower c) = isPySpace c := by
  show isPySpace (if c.toNat ≥ 65 ∧ c.toNat ≤ 90 then Char.ofNat (c.toNat + 32) else c) =
    isPySpace c
  split
  · next h =>
    have ht : (Char.ofNat (c.toNat + 32)).toNat = c.toNat + 32 :=
      char_toNat_ofNat _ (Or.inl (by omega))
    rw [isPySpace_eq_false_of_toNat _ (by rw [ht]; omega),
      isPySpace_eq_false_of_toNat c (by omega)]
  · rfl

theorem pySplit_eq_nil_iff (s : PyStr) :
    pySplit s = [] ↔ ∀ c ∈ s, isPySpace c = true := by
  constructor
  · induction s with
    | nil => simp
    | cons c cs ih =>
      intro h
      cases hc : isPySpace c with
      | true =>
        rw [pySplit_cons_ws c cs hc] at h
        intro d hd
        rcases List.mem_cons.mp hd with rfl | hd
        · exact hc
        · exact ih h d hd
      | false =>
        rw [pySplit_cons_tok c cs hc] at h
        simp at h
  · intro h
    show splitAux [] s = []
    rw [splitAux_allWs s [] h]
    rfl

theorem tokenSet_eq_empty_iff (s : PyStr) :
    tokenSet s = ∅ ↔ ∀ c ∈ s, isPySpace c = true := by
  unfold tokenSet pyLower
  rw [List.toFinset_eq_empty_iff, pySplit_eq_nil_iff]
  constructor
  · intro h c hc
    have := h (Char.toLower c) (List.mem_map_of_mem _ hc)
    rwa [isPySpace_toLower] at this
  · intro h d hd
    rcases List.mem_map.mp hd with ⟨c, hc, rfl⟩
    rw [isPySpace_toLower]
    exact h c hc

/-- C1 amended: for every raw text whose normalized text is nonempty and
passes the length gate, and every strictly positive threshold (anywhere
in the interval (0,1]), the detection is accepted when `last_text` is
still the empty string: its similarity against empty is exactly 0, and
0 is strictly below any positive threshold.  This covers every
`min_length`, including 0, as long as the normalized text is nonempty. -/
theorem first_detection_accepted (raw : PyStr) (minLen : ℕ) (thr : ℚ)
    (hne : normalize_text raw ≠ [])
    (hlen : minLen ≤ (normalize_text raw).length)
    (hthr0 : 0 < thr) (hthr1 : thr ≤ 1) :
    dedupAccept minLen thr [] (normalize_text raw) = true := by
  have hta : tokenSet (normalize_text raw) ≠ ∅ := by
    intro he
    have hall := (tokenSet_eq_empty_iff _).mp he
    have h1 : pySplit (normalize_text raw) = [] := (pySplit_eq_nil_iff _).mpr hall
    rw [normalize_text_split] at h1
    refine hne ?_
    show pyStrip (pyJoin (pySplit raw)) = []
    rw [h1]
    rfl
  have htb : tokenSet ([] : PyStr) = ∅ := by simp [tokenSet, pyLower, pySplit, splitAux]
  have hj : jaccard_similarity (normalize_text raw) [] = 0 := by
    simp [jaccard_similarity, hta, htb]
  unfold dedupAccept
  rw [if_pos hlen, hj]
  simpa using hthr0

theorem first_detection_accepted_witness :
    dedupAccept 4 1 [] (normalize_text ['a', 'b', 'c', 'd']) = true ∧
    dedupAccept 0 1 [] (normalize_text ['h', 'i']) = true :=
  ⟨first_detection_accepted ['a', 'b', 'c', 'd'] 4 1 (by decide) (by decide)
      (by decide) (by decide),
   first_detection_accepted ['h', 'i'] 0 1 (by decide) (by decide)
      (by decide) (by decide)⟩

theorem speaker_stop_frozen (t : PyStr) (x y : SpeakerState)
    (hstep : SpeakerStep x y)
    (hx : x.stop = true ∧ (x.pc = .haveText t ∨ x.pc = .done)) :
    (y.stop = true ∧ (y.pc = .haveText t ∨ y.pc = .done)) ∧ y.events = x.events := by
  obtain ⟨hstop, hpc⟩ := hx
  cases hstep <;> rcases hpc with hpc | hpc <;> simp_all

/-- C2: once the consumer has dequeued a payload and observes the stop
flag set (the check on app.py line 42), no further payload is ever spoken
in any continuation — the event list is frozen, the worker can only be at
that check or terminated — and termination is enabled in one step, no
matter what the dequeued payload is or what remains in the queue. -/
theorem stop_observed_speaks_nothing (s s' : SpeakerState) (t : PyStr)
    (hpc : s.pc = .haveText t) (hstop : s.stop = true)
    (hrun : Relation.ReflTransGen SpeakerStep s s') :
    s'.events = s.events ∧ (s'.pc = .haveText t ∨ s'.pc = .done) ∧
    SpeakerStep s { s with pc := .done } := by
  have key : ∀ y, Relation.ReflTransGen SpeakerStep s y →
      (y.stop = true ∧ (y.pc = .haveText t ∨ y.pc = .done)) ∧ y.events = s.events := by
    intro y hy
    induction hy with
    | refl => exact ⟨⟨hstop, Or.inl hpc⟩, rfl⟩
    | tail hxy hstep ih =>
      obtain ⟨hx, hev⟩ := ih
      obtain ⟨hy2, hev2⟩ := speaker_stop_frozen t _ _ hstep hx
      exact ⟨hy2, hev2.trans hev⟩
  obtain ⟨⟨_, hpc2⟩, hev⟩ := key s' hrun
  exact ⟨hev, hpc2, SpeakerStep.checkStop s t hpc hstop⟩

theorem stop_observed_speaks_nothing_witness :
    stoppedState.events = stoppedState.events ∧
    (stoppedState.pc = .haveText ['h', 'i'] ∨ stoppedState.pc = .done) ∧
    SpeakerStep stoppedState { stoppedState with pc := .done } :=
  stop_observed_speaks_nothing stoppedState stoppedState ['h', 'i'] rfl rfl
    Relation.ReflTransGen.refl

theorem startedOf_append (a b : List SpeakEv) :
    startedOf (a ++ b) = startedOf a ++ startedOf b := by
  induction a with
  | nil => rfl
  | cons e es ih => cases e <;> simp [startedOf, ih]

theorem pairEvents_snoc (ts : List PyStr) (t : PyStr) :
    pairEvents (ts ++ [t]) = pairEvents ts ++ [SpeakEv.sstart t, SpeakEv.sfin t] := by
  induction ts with
  | nil => rfl
  | cons u us ih => simp [pairEvents, ih]

theorem speakerInv_step (x y : SpeakerState) (hstep : SpeakerStep x y)
    (hx : SpeakerInv x) : SpeakerInv y := by
  obtain ⟨h1, h2, h3⟩ := hx
  cases hstep with
  | say t ht =>
    refine ⟨?_, h2, h3⟩
    rw [h1]
    simp
  | closeStop => exact ⟨h1, h2, h3⟩
  | closeSentinel =>
    refine ⟨?_, h2, h3⟩
    rw [h1]
    simp
  | topStop h hs =>
    rw [h] at h2 h3
    exact ⟨h1, h2, x.dequeued, [], by simp, by simp, h3⟩
  | topGo h hs =>
    rw [h] at h2 h3
    exact ⟨h1, h2, h3⟩
  | getItem t q' h hq =>
    rw [h] at h2 h3
    refine ⟨?_, h2, x.dequeued, rfl, h3⟩
    rw [h1, hq]
    simp
  | checkStop t h hs =>
    rw [h] at h2 h3
    obtain ⟨d, hd, hst⟩ := h3
    exact ⟨h1, h2, d, [t], hd, by simp, hst⟩
  | checkPass t h hs =>
    rw [h] at h2 h3
    obtain ⟨d, hd, hst⟩ := h3
    exact ⟨h1, h2, d, hd, hst⟩
  | skipBlank t h ht =>
    rw [h] at h2 h3
    obtain ⟨d, hd, hst⟩ := h3
    refine ⟨h1, h2, ?_⟩
    show startedOf x.events = x.dequeued.filter spokenOK
    have hok : spokenOK t = false := by simp [spokenOK, ht]
    rw [hd, List.filter_append, hst]
    simp [hok]
  | speakStart t h ht =>
    rw [h] at h2 h3
    obtain ⟨d, hd, hst⟩ := h3
    obtain ⟨ts, hts⟩ := h2
    have hok : spokenOK t = true := by simp [spokenOK, List.isEmpty_iff, ht]
    refine ⟨h1, ⟨ts, by rw [hts]⟩, d, hd, hok, ?_⟩
    rw [startedOf_append, hst]
    rfl
  | speakFin t h =>
    rw [h] at h2 h3
    obtain ⟨ts, hts⟩ := h2
    obtain ⟨d, hd, hok, hst⟩ := h3
    refine ⟨h1, ⟨ts ++ [t], ?_⟩, ?_⟩
    · rw [hts, pairEvents_snoc]
      simp
    · show startedOf (x.events ++ [SpeakEv.sfin t]) = x.dequeued.filter spokenOK
      rw [startedOf_append, hst, hd, List.filter_append]
      simp [startedOf, hok]

theorem speakerInv_reach (s : SpeakerState) (h : SpeakerReach s) : SpeakerInv s := by
  induction h with
  | refl => exact ⟨rfl, ⟨[], rfl⟩, rfl⟩
  | tail hxy hstep ih => exact speakerInv_step _ _ hstep ih

/-- C4: in every reachable state of the speech channel the event list is
a sequence of utterances each spoken to completion before the next one
starts (never overlapping, at most one unfinished utterance at the end),
and the utterances started so far are exactly the audible payloads of a
prefix of the enqueue history, in enqueue order — so of two payloads
enqueued a-then-b, a finishes before b starts. -/
theorem speech_fifo_order (s : SpeakerState) (h : SpeakerReach s) :
    (∃ ts, s.events = pairEvents ts ∨
      ∃ t, s.events = pairEvents ts ++ [SpeakEv.sstart t]) ∧
    (∃ k, startedOf s.events = (s.enqueued.take k).filter spokenOK) := by
  obtain ⟨h1, h2, h3⟩ := speakerInv_reach s h
  constructor
  · cases hpc : s.pc with
    | top =>
      rw [hpc] at h2
      obtain ⟨ts, hts⟩ := h2
      exact ⟨ts, Or.inl hts⟩
    | getting =>
      rw [hpc] at h2
      obtain ⟨ts, hts⟩ := h2
      exact ⟨ts, Or.inl hts⟩
    | haveText t =>
      rw [hpc] at h2
      obtain ⟨ts, hts⟩ := h2
      exact ⟨ts, Or.inl hts⟩
    | checked t =>
      rw [hpc] at h2
      obtain ⟨ts, hts⟩ := h2
      exact ⟨ts, Or.inl hts⟩
    | speaking t =>
      rw [hpc] at h2
      obtain ⟨ts, hts⟩ := h2
      exact ⟨ts, Or.inr ⟨t, hts⟩⟩
    | done =>
      rw [hpc] at h2
      obtain ⟨ts, hts⟩ := h2
      exact ⟨ts, Or.inl hts⟩
  · cases hpc : s.pc with
    | top =>
      rw [hpc] at h3
      refine ⟨s.dequeued.length, ?_⟩
      rw [h1, List.take_left]
      exact h3
    | getting =>
      rw [hpc] at h3
      refine ⟨s.dequeued.length, ?_⟩
      rw [h1, List.take_left]
      exact h3
    | haveText t =>
      rw [hpc] at h3
      obtain ⟨d, hd, hst⟩ := h3
      refine ⟨d.length, ?_⟩
      rw [h1, hd, List.append_assoc, List.take_left]
      exact hst
    | checked t =>
      rw [hpc] at h3
      obtain ⟨d, hd, hst⟩ := h3
      refine ⟨d.length, ?_⟩
      rw [h1, hd, List.append_assoc, List.take_left]
      exact hst
    | speaking t =>
      rw [hpc] at h3
      obtain ⟨d, hd, hok, hst⟩ := h3
      refine ⟨d.length + 1, ?_⟩
      have htake : ((d ++ [t]) ++ s.queue).take (d.length + 1) = d ++ [t] := by
        have hl : (d ++ [t]).length = d.length + 1 := by simp
        rw [← hl, List.take_left]
      rw [h1, hd, htake, List.filter_append, hst]
      simp [hok]
    | done =>
      rw [hpc] at h3
      obtain ⟨d, rest, hd, _, hst⟩ := h3
      refine ⟨d.length, ?_⟩
      rw [h1, hd, List.append_assoc, List.take_left]
      exact hst

theorem speech_fifo_order_witness :
    (∃ ts, speakerInit.events = pairEvents ts ∨
      ∃ t, speakerInit.events = pairEvents ts ++ [SpeakEv.sstart t]) ∧
    (∃ k, startedOf speakerInit.events = (speakerInit.enqueued.take k).filter spokenOK) :=
  speech_fifo_order speakerInit Relation.ReflTransGen.refl
